import Mathlib

/-! Verification development for the PassKit batch member-lookup utility
(`src/app.py`).  The Python source is shallowly embedded: strings are
`String`/`List Char`, JSON values parsed from HTTP bodies are the inductive
`Json`, fallible Python code (code that can raise) is modelled with
`Except String`, and the Streamlit session state is modelled as an explicit
state machine over UI events.  Character-level operations (`str.upper`,
`str.strip`, `re.sub`, `str.splitlines`) are modelled at the level of
Unicode code points; `str.upper` is modelled by `Char.toUpper`, which
matches CPython on the basic latin range used by this application.
-/

namespace PasskitApp

/-- Whitespace test matching Python's `str.isspace` / `re` `\s` class
(the Unicode whitespace code points). -/
def isPySpace (c : Char) : Bool :=
  decide ((9 ≤ c.toNat ∧ c.toNat ≤ 13) ∨ c.toNat = 28 ∨ c.toNat = 29 ∨
    c.toNat = 30 ∨ c.toNat = 31 ∨ c.toNat = 32 ∨ c.toNat = 133 ∨ c.toNat = 160 ∨
    c.toNat = 5760 ∨ (8192 ≤ c.toNat ∧ c.toNat ≤ 8202) ∨ c.toNat = 8232 ∨
    c.toNat = 8233 ∨ c.toNat = 8239 ∨ c.toNat = 8287 ∨ c.toNat = 12288)

/-- Python `str.strip()`: drop whitespace from both ends. -/
def pyStrip (l : List Char) : List Char :=
  ((l.dropWhile isPySpace).reverse.dropWhile isPySpace).reverse

/-- Python `re.sub(r"\s+", " ", ·)`: replace each maximal whitespace run by a
single space.  The flag records whether the previous character was
whitespace (so its replacement space has already been emitted). -/
def collapseWsAux : Bool → List Char → List Char
  | _, [] => []
  | prevWs, c :: cs =>
    if isPySpace c then
      (if prevWs then collapseWsAux true cs else ' ' :: collapseWsAux true cs)
    else c :: collapseWsAux false cs

/-- No two adjacent whitespace characters (the shape left behind by the
whitespace-run collapse). -/
def noTwoWs : List Char → Bool
  | [] => true
  | [_] => true
  | a :: b :: rest => (!(isPySpace a && isPySpace b)) && noTwoWs (b :: rest)

/-- Code-point-level core of `normalize_name`: strip, uppercase, collapse
whitespace runs. -/
def normCore (l : List Char) : List Char :=
  collapseWsAux false ((pyStrip l).map Char.toUpper)

/-- `normalize_name` from `src/app.py` lines 45-50:
`re.sub(r"\s+", " ", (s or "").strip().upper())`. -/
def normalize_name (s : String) : String :=
  ⟨normCore s.data⟩

/-- Line-break code points recognised by Python `str.splitlines`
(other than the carriage return, which is handled separately so that
the `"\r\n"` pair counts as one break). -/
def isLineBreak (c : Char) : Bool :=
  decide (c.toNat = 10 ∨ c.toNat = 11 ∨ c.toNat = 12 ∨ c.toNat = 28 ∨
    c.toNat = 29 ∨ c.toNat = 30 ∨ c.toNat = 133 ∨ c.toNat = 8232 ∨ c.toNat = 8233)

/-- Worker for Python `str.splitlines`; `cur` is the current line, reversed. -/
def splitlinesGo (cur : List Char) : List Char → List (List Char)
  | [] => if cur.isEmpty then [] else [cur.reverse]
  | c :: cs =>
    if c.toNat = 13 then
      match cs with
      | d :: cs' =>
        if d.toNat = 10 then cur.reverse :: splitlinesGo [] cs'
        else cur.reverse :: splitlinesGo [] (d :: cs')
      | [] => [cur.reverse]
    else if isLineBreak c then cur.reverse :: splitlinesGo [] cs
    else splitlinesGo (c :: cur) cs

/-- Python `str.splitlines()`. -/
def pySplitlines (l : List Char) : List (List Char) :=
  splitlinesGo [] l

/-- `split_names_multiline` from `src/app.py` lines 53-56 (the source's
`limit` parameter defaults to 50; `main` passes 50 explicitly): split the raw
text into lines, normalize each line, drop the lines that normalize to the
empty string, keep at most `limit` entries. -/
def split_names_multiline (text : String) (limit : Nat) : List String :=
  (((pySplitlines text.data).map (fun l => normalize_name ⟨l⟩)).filter
    (fun s => !(s == ""))).take limit

/-- JSON values, the universe of parsed HTTP response bodies and member
records.  Python dicts are association lists (JSON objects cannot have
duplicate keys in practice; lookups take the first binding). -/
inductive Json where
  | null : Json
  | bool : Bool → Json
  | num : Int → Json
  | str : String → Json
  | arr : List Json → Json
  | obj : List (String × Json) → Json

/-- Python truthiness for the JSON universe. -/
def pyTruthy : Json → Bool
  | .null => false
  | .bool b => b
  | .num n => !(n == 0)
  | .str s => !(s == "")
  | .arr l => !l.isEmpty
  | .obj l => !l.isEmpty

/-- Python `a or b`: `a` when truthy, otherwise `b`. -/
def pyOr (a b : Json) : Json :=
  if pyTruthy a then a else b

/-- Python `dict.get(k)`: `None` when the key is absent. -/
def jget (kvs : List (String × Json)) (k : String) : Json :=
  (kvs.lookup k).getD .null

/-- Python `repr` for the JSON universe (used by `str` on containers). -/
def pyRepr : Json → String
  | .null => "None"
  | .bool true => "True"
  | .bool false => "False"
  | .num n => toString n
  | .str s => "'" ++ s ++ "'"
  | .arr xs => "[" ++ String.intercalate ", " (xs.attach.map fun x => pyRepr x.1) ++ "]"
  | .obj kvs => "\x7b" ++
      String.intercalate ", "
        (kvs.attach.map fun kv => "'" ++ kv.1.1 ++ "': " ++ pyRepr kv.1.2) ++ "\x7d"
decreasing_by
  · have := List.sizeOf_lt_of_mem x.2
    simp only [Json.arr.sizeOf_spec]
    omega
  · have := List.sizeOf_lt_of_mem kv.2
    have h2 : sizeOf kv.1.2 < sizeOf kv.1 := by
      obtain ⟨k, v⟩ := kv.1
      simp only [Prod.mk.sizeOf_spec]
      omega
    simp only [Json.obj.sizeOf_spec]
    omega

/-- Python `str(·)` for the JSON universe. -/
def pyStr : Json → String
  | .str s => s
  | v => pyRepr v

/-- `extract_display_name_and_id` from `src/app.py` lines 180-195.  Reads
`person.displayName` (tolerating key-casing variants) and the member id,
normalizes the display name, stringifies the id.  Raises (`.error`) exactly
where Python would: on a non-dict member object (`.get` missing) and on a
truthy non-string display name (`.strip` missing in `normalize_name`). -/
def extract_display_name_and_id (m : Json) : Except String (String × String) :=
  match m with
  | .obj kvs =>
    let person := pyOr (jget kvs "person") (pyOr (jget kvs "Person") (.obj []))
    let display_name : Json :=
      match person with
      | .obj pkvs =>
        pyOr (jget pkvs "displayName")
          (pyOr (jget pkvs "display_name") (pyOr (jget pkvs "name") (.str "")))
      | _ => .str ""
    let member_id : Json :=
      pyOr (jget kvs "id")
        (pyOr (jget kvs "memberId") (pyOr (jget kvs "member_id") (.str "")))
    match display_name with
    | .str s => .ok (normalize_name s, pyStr member_id)
    | v =>
      if pyTruthy v then .error "AttributeError"
      else .ok (normalize_name "", pyStr member_id)
  | _ => .error "AttributeError"

/-- CONTAINS-mode match test from `src/app.py` line 481:
`sname in member_name or member_name in sname` (substring in either
direction). -/
def likeMatch (member_name sname : String) : Bool :=
  decide (sname.data <:+: member_name.data) || decide (member_name.data <:+: sname.data)

/-- One result row of the output table (search name, member name, member id:
the columns built at `src/app.py` lines 488-494). -/
structure Row where
  searchName : String
  memberName : String
  passkitId : String
deriving DecidableEq

/-- Body of the reconciliation loop, `src/app.py` lines 468-495: discard the
record when its extracted id is empty; in `eq` mode attribute it to its own
member name when that name is among the inputs; otherwise attribute it to the
first input name matching in CONTAINS fashion; discard the record when the
attribution is empty. -/
def rowOf (operator : String) (names : List String) (member_name member_id : String) :
    Option Row :=
  if member_id = "" then none
  else
    let matched_search :=
      if operator = "eq" then
        (if member_name ∈ names then member_name else "")
      else
        (match names.find? (likeMatch member_name) with
         | some sname => sname
         | none => "")
    if matched_search = "" then none
    else some ⟨matched_search, member_name, member_id⟩

/-- The reconciliation loop of `main`, `src/app.py` lines 464-495: extract
each raw member, apply `rowOf`, keep the produced rows in record order.  An
exception raised while processing a record aborts the whole loop. -/
def buildRows (operator : String) (names : List String) :
    List Json → Except String (List Row)
  | [] => .ok []
  | m :: rest =>
    match extract_display_name_and_id m with
    | .error e => .error e
    | .ok (mn, mid) =>
      match buildRows operator names rest with
      | .error e => .error e
      | .ok rows =>
        match rowOf operator names mn mid with
        | some r => .ok (r :: rows)
        | none => .ok rows

/-- The not-found computation of `main`, `src/app.py` lines 500-501:
input names that appear as no row's search name. -/
def notFound (names : List String) (rows : List Row) : List String :=
  names.filter fun n => !((rows.map Row.searchName).contains n)

/-- First key of `keys` bound in `kvs` to a JSON list, with that list
(the `for key in (...)` probes at `src/app.py` lines 166-168 and 172-174). -/
def findListKey (kvs : List (String × Json)) : List String → Option (List Json)
  | [] => none
  | k :: ks =>
    match kvs.lookup k with
    | some (.arr l) => some l
    | _ => findListKey kvs ks

/-- Response-envelope parsing from `src/app.py` lines 156-177, applied to the
value returned by `resp.json()`.  A bare list is returned as is; an object is
probed for the known wrapper keys, then for a nested `response` wrapper, and
otherwise yields `[]`.  Any other body reproduces Python's behaviour of the
`key in data` / `data[key]` probes: scalars are not iterable (`in` raises
TypeError), and strings raise TypeError on `data[key]` as soon as a probed
key occurs as a substring. -/
def parseMembers (data : Json) : Except String (List Json) :=
  match data with
  | .arr xs => .ok xs
  | .obj kvs =>
    match findListKey kvs ["members", "results", "data", "items"] with
    | some l => .ok l
    | none =>
      match kvs.lookup "response" with
      | some (.obj rkvs) =>
        match findListKey rkvs ["members", "results", "items"] with
        | some l => .ok l
        | none => .ok []
      | _ => .ok []
  | .str s =>
    if (["members", "results", "data", "items"].any
          fun k => decide (k.data <:+: s.data)) then
      .error "TypeError: string indices must be integers"
    else if decide ("response".data <:+: s.data) then
      .error "TypeError: string indices must be integers"
    else .ok []
  | _ => .error "TypeError: argument of type is not iterable"

/-- Status check from `src/app.py` lines 153-154:
`raise RuntimeError(f"HTTP {status}: {text[:500]}")` for status >= 400. -/
def checkStatus (status : Nat) (text : String) : Except String Unit :=
  if 400 ≤ status then
    .error ("HTTP " ++ toString status ++ ": " ++ text.take 500)
  else .ok ()

/-- Sub-kinds of an upstream HTTP failure, as named by the specification. -/
inductive UpstreamKind where
  | authFailure : UpstreamKind
  | notFoundKind : UpstreamKind
  | otherKind : UpstreamKind
deriving DecidableEq

/-- Modelled from the spec: the `UpstreamError(statusCode, bodyExcerpt)`
value with its distinguished sub-kind; the source raises one `RuntimeError`
whose message carries exactly these data. -/
structure UpstreamError where
  kind : UpstreamKind
  statusCode : Nat
  bodyExcerpt : String
deriving DecidableEq

/-- Modelled from the spec: sub-kind classification of a failing status
(401/403 authentication failure, 404 not found, otherwise other). -/
def classifyStatus (status : Nat) : UpstreamKind :=
  if status = 401 ∨ status = 403 then .authFailure
  else if status = 404 then .notFoundKind
  else .otherKind

/-- Modelled from the spec: the structured upstream error for a failing
response. -/
def mkUpstreamError (status : Nat) (text : String) : UpstreamError :=
  ⟨classifyStatus status, status, text.take 500⟩

/-- Rendering of the structured upstream error as the message the source
interpolates at `src/app.py` line 154. -/
def renderUpstreamError (e : UpstreamError) : String :=
  "HTTP " ++ toString e.statusCode ++ ": " ++ e.bodyExcerpt

/-- Filter payload built at `src/app.py` lines 123-147: a single OR filter
group of per-name `displayName` clauses under the configured operator. -/
def buildMemberListPayload (operator : String) (limit : Int) (offset : Int)
    (order_by : String) (order_asc : Bool) (display_names : List String) : Json :=
  .obj [("filters", .obj [
    ("limit", .num limit),
    ("offset", .num offset),
    ("orderBy", .str order_by),
    ("orderAsc", .bool order_asc),
    ("filterGroups", .arr [
      .obj [
        ("condition", .str "OR"),
        ("fieldFilters", .arr (display_names.map fun name =>
          .obj [
            ("filterField", .str "displayName"),
            ("filterValue", .str name),
            ("filterOperator", .str operator)]))]])])]

/-- `list_members_by_display_names` from `src/app.py` lines 102-177.  The two
collaborators are passed as oracles: `auth_headers` is the outcome of
`build_auth_headers()` (which may raise on missing credentials), and
`http_post` maps the request URL and JSON payload to the response status,
text, and `resp.json()` outcome.  On an empty name batch the function
returns `[]` before the URL, payload, headers, or HTTP call are used. -/
def list_members_by_display_names
    (auth_headers : Except String (List (String × String)))
    (http_post : String → Json → Except String (Nat × String × Except String Json))
    (base : String) (program_id : String) (display_names : List String)
    (operator : String) (limit : Int) (offset : Int)
    (order_by : String) (order_asc : Bool) :
    Except String (List Json) :=
  if display_names.isEmpty then .ok []
  else
    let url := base ++ "/members/member/list/" ++ program_id
    let payload := buildMemberListPayload operator limit offset order_by order_asc
      display_names
    match auth_headers with
    | .error e => .error e
    | .ok _headers =>
      match http_post url payload with
      | .error e => .error e
      | .ok (status, text, jsonResult) =>
        match checkStatus status text with
        | .error e => .error e
        | .ok () =>
          match jsonResult with
          | .error e => .error e
          | .ok data => parseMembers data

/-- Streamlit session state touched by the script: the copied-marks set
(`st.session_state.copied_ids`, a set of member ids modelled as a
duplicate-free list) and the input text (`st.session_state.names_text`). -/
structure SessionState where
  copied_ids : List String
  names_text : String
deriving DecidableEq

/-- Session-state initialisation, `src/app.py` lines 201-205. -/
def init_state : SessionState :=
  ⟨[], ""⟩

/-- Operator interactions that touch the session state. -/
inductive UiEvent where
  | editNames : String → UiEvent
  | ocrFill : List String → UiEvent
  | runSearch : (text : String) → (operator : String) → (records : List Json) → UiEvent
  | markCopied : String → UiEvent
  | clearMarks : UiEvent
  | downloadCsv : UiEvent

/-- Session-state transition of the script.  Editing the text area or an OCR
fill update `names_text` (lines 420 and 432); running a search stores the
submitted text and computes rows locally without touching `copied_ids`
(lines 432-507); the mark button adds one non-empty member id (lines
323-334); the clear button resets the set (line 293); the CSV download
changes nothing. -/
def step (s : SessionState) : UiEvent → SessionState
  | .editNames t => { s with names_text := t }
  | .ocrFill names => { s with names_text := String.intercalate "\n" names }
  | .runSearch t _ _ => { s with names_text := t }
  | .markCopied pid =>
    if pid = "" then s else { s with copied_ids := s.copied_ids.insert pid }
  | .clearMarks => { s with copied_ids := [] }
  | .downloadCsv => s

/-- `pid in st.session_state.copied_ids` (lines 241 and 329). -/
def isMarked (s : SessionState) (pid : String) : Bool :=
  s.copied_ids.contains pid

/-- Search events (a batch run that does not touch the copied-marks set). -/
def isSearchEvent : UiEvent → Bool
  | .runSearch _ _ _ => true
  | _ => false

/-- Events whose handler writes to the copied-marks set. -/
def touchesMarks : UiEvent → Bool
  | .markCopied _ => true
  | .clearMarks => true
  | _ => false

/-- The member record `{displayName: "BOB LEE", id: "m9"}` of the
CONTAINS-mode tie-break example. -/
def recBobLee : Json :=
  .obj [("person", .obj [("displayName", .str "BOB LEE")]), ("id", .str "m9")]

/-- The member record `{displayName: "ALICE SMITH", id: "m1"}` of the
EXACT-mode example. -/
def recAlice : Json :=
  .obj [("person", .obj [("displayName", .str "ALICE SMITH")]), ("id", .str "m1")]

/-- The member record `{displayName: "CAROL JONES", id: "m2"}` of the
EXACT-mode example. -/
def recCarol : Json :=
  .obj [("person", .obj [("displayName", .str "CAROL JONES")]), ("id", .str "m2")]

/-- Modelled from the spec: the EXACT-mode per-record outcome — a record with
a non-empty identifier produces exactly one row, whose search name equals its
normalized member name, iff that member name is verbatim among the input
names. -/
def specEqRow (names : List String) (m : Json) : Option Row :=
  match extract_display_name_and_id m with
  | .ok (mn, mid) => if mid ≠ "" ∧ mn ∈ names then some ⟨mn, mn, mid⟩ else none
  | .error _ => none

/-- Modelled from the spec: the known envelope shapes of an object body —
the record list directly under one of `members`, `results`, `data`, `items`,
or nested one level under a `response` wrapper under one of `members`,
`results`, `items`. -/
def specKnownShape (kvs : List (String × Json)) : Bool :=
  (["members", "results", "data", "items"].any fun k =>
    match kvs.lookup k with
    | some (.arr _) => true
    | _ => false) ||
  (match kvs.lookup "response" with
   | some (.obj rkvs) =>
     ["members", "results", "items"].any fun k =>
       match rkvs.lookup k with
       | some (.arr _) => true
       | _ => false
   | _ => false)

/-! Lemmas about the reconciliation loop. -/

theorem rowOf_eq_some {op : String} {names : List String} {mn mid : String} {r : Row}
    (h : rowOf op names mn mid = some r) :
    mid ≠ "" ∧ r.memberName = mn ∧ r.passkitId = mid ∧ r.searchName ≠ "" ∧
      ((op = "eq" ∧ r.searchName = mn ∧ mn ∈ names) ∨
        (op ≠ "eq" ∧ names.find? (likeMatch mn) = some r.searchName)) := by
  unfold rowOf at h
  by_cases hmid : mid = ""
  · simp [hmid] at h
  · simp only [hmid, if_false] at h
    by_cases hop : op = "eq"
    · by_cases hin : mn ∈ names
      · simp only [hop, if_true, hin, if_pos, if_true] at h
        by_cases hmn : mn = ""
        · simp [hmn] at h
        · simp only [hmn, if_false] at h
          cases h
          exact ⟨hmid, rfl, rfl, hmn, Or.inl ⟨hop, rfl, hin⟩⟩
      · simp [hop, hin] at h
    · simp only [hop, if_false] at h
      cases hfind : names.find? (likeMatch mn) with
      | none => simp [hfind] at h
      | some sname =>
        simp only [hfind] at h
        by_cases hs : sname = ""
        · simp [hs] at h
        · simp only [hs, if_false] at h
          cases h
          exact ⟨hmid, rfl, rfl, hs, Or.inr ⟨hop, rfl⟩⟩

theorem buildRows_ok_mem {op : String} {names : List String} :
    ∀ {ms : List Json} {rows : List Row}, buildRows op names ms = .ok rows →
      ∀ r ∈ rows, ∃ m ∈ ms, ∃ mn mid,
        extract_display_name_and_id m = .ok (mn, mid) ∧
          rowOf op names mn mid = some r := by
  intro ms
  induction ms with
  | nil =>
    intro rows h r hr
    unfold buildRows at h
    cases h
    simp at hr
  | cons m rest ih =>
    intro rows h r hr
    unfold buildRows at h
    split at h
    · exact Except.noConfusion h
    · rename_i mn mid hex
      split at h
      · exact Except.noConfusion h
      · rename_i rows' hrest
        split at h
        · rename_i r0 hrow
          cases h
          rcases List.mem_cons.mp hr with hr0 | hr'
          · subst hr0
            exact ⟨m, List.mem_cons_self _ _, mn, mid, hex, hrow⟩
          · obtain ⟨m', hm', rest'⟩ := ih hrest r hr'
            exact ⟨m', List.mem_cons_of_mem _ hm', rest'⟩
        · rename_i hrow
          cases h
          obtain ⟨m', hm', rest'⟩ := ih hrest r hr
          exact ⟨m', List.mem_cons_of_mem _ hm', rest'⟩

theorem searchName_mem_of_buildRows {op : String} {names : List String}
    {ms : List Json} {rows : List Row} (h : buildRows op names ms = .ok rows)
    {r : Row} (hr : r ∈ rows) : r.searchName ∈ names := by
  obtain ⟨m, _, mn, mid, _, hrow⟩ := buildRows_ok_mem h r hr
  rcases (rowOf_eq_some hrow).2.2.2.2 with ⟨_, hsn, hin⟩ | ⟨_, hfind⟩
  · exact hsn ▸ hin
  · exact List.mem_of_find?_eq_some hfind

theorem find?_decompose {α : Type} {p : α → Bool} :
    ∀ {l : List α} {a : α}, l.find? p = some a →
      ∃ pre post, l = pre ++ a :: post ∧ p a = true ∧ ∀ x ∈ pre, p x = false := by
  intro l
  induction l with
  | nil => intro a h; cases h
  | cons c cs ih =>
    intro a h
    rw [List.find?_cons] at h
    cases hc : p c with
    | true =>
      rw [hc] at h
      cases h
      exact ⟨[], cs, rfl, hc, by simp⟩
    | false =>
      rw [hc] at h
      obtain ⟨pre, post, heq, hpa, hpre⟩ := ih h
      refine ⟨c :: pre, post, by rw [heq]; rfl, hpa, ?_⟩
      intro x hx
      rcases List.mem_cons.mp hx with rfl | hx'
      · exact hc
      · exact hpre x hx'

theorem mem_notFound_iff {names : List String} {rows : List Row} {x : String} :
    x ∈ notFound names rows ↔ x ∈ names ∧ x ∉ rows.map Row.searchName := by
  simp only [notFound, List.mem_filter, Bool.not_eq_true',
    List.contains_eq_any_beq, List.any_eq_false, beq_iff_eq]
  constructor
  · rintro ⟨h1, h2⟩
    exact ⟨h1, fun hx => h2 x hx rfl⟩
  · rintro ⟨h1, h2⟩
    exact ⟨h1, fun a ha hxa => h2 (hxa ▸ ha)⟩

/-- Claim C1: in CONTAINS (`like`) mode every produced row is attributed to
the first input name (in batch order) that matches the record's normalized
member name as a substring in either direction — every earlier input name
fails the match test — and on input names `["LEE", "BOB LEE"]` with the one
record `{displayName: "BOB LEE", id: "m9"}` the match is attributed to
`"LEE"`. -/
theorem contains_mode_first_match :
    (∀ (names : List String) (ms : List Json) (rows : List Row),
        buildRows "like" names ms = .ok rows →
        ∀ r ∈ rows, ∃ pre post, names = pre ++ r.searchName :: post ∧
          likeMatch r.memberName r.searchName = true ∧
          ∀ s ∈ pre, likeMatch r.memberName s = false) ∧
    buildRows "like" ["LEE", "BOB LEE"] [recBobLee] =
      .ok [⟨"LEE", "BOB LEE", "m9"⟩] := by
  constructor
  · intro names ms rows h r hr
    obtain ⟨m, -, mn, mid, -, hrow⟩ := buildRows_ok_mem h r hr
    obtain ⟨-, hmn, -, -, hmode⟩ := rowOf_eq_some hrow
    rcases hmode with ⟨heq, -⟩ | ⟨-, hfind⟩
    · exact absurd heq (by decide)
    · subst hmn
      exact find?_decompose hfind
  · rfl

/-- Witness for C1 at the tie-break example: the row for `"m9"` is attributed
to `"LEE"`, the first matching input name, with an empty list of earlier
names. -/
theorem contains_mode_first_match_witness :
    ∃ pre post, (["LEE", "BOB LEE"] : List String) = pre ++ "LEE" :: post ∧
      likeMatch "BOB LEE" "LEE" = true ∧ ∀ s ∈ pre, likeMatch "BOB LEE" s = false :=
  contains_mode_first_match.1 ["LEE", "BOB LEE"] [recBobLee]
    [⟨"LEE", "BOB LEE", "m9"⟩] rfl ⟨"LEE", "BOB LEE", "m9"⟩ (List.mem_cons_self _ _)

/-- Claim C2: for every batch, operator and record list, the input names
appearing as search names of the produced rows together with the computed
not-found list partition the deduplicated input-name set: their union is the
input set and their intersection is empty. -/
theorem batch_outcome_partition :
    ∀ (op : String) (names : List String) (ms : List Json) (rows : List Row),
      buildRows op names ms = .ok rows →
      (rows.map Row.searchName).toFinset ∪ (notFound names rows).toFinset
          = names.toFinset ∧
      (rows.map Row.searchName).toFinset ∩ (notFound names rows).toFinset = ∅ := by
  intro op names ms rows h
  have hmem : ∀ x ∈ rows.map Row.searchName, x ∈ names := by
    intro x hx
    obtain ⟨r, hr, rfl⟩ := List.mem_map.mp hx
    exact searchName_mem_of_buildRows h hr
  constructor
  · ext x
    simp only [Finset.mem_union, List.mem_toFinset, mem_notFound_iff]
    constructor
    · rintro (hx | ⟨hx, -⟩)
      · exact hmem x hx
      · exact hx
    · intro hx
      by_cases hfound : x ∈ rows.map Row.searchName
      · exact Or.inl hfound
      · exact Or.inr ⟨hx, hfound⟩
  · ext x
    simp only [Finset.mem_inter, List.mem_toFinset, mem_notFound_iff,
      Finset.not_mem_empty, iff_false]
    rintro ⟨hx, -, hnot⟩
    exact hnot hx

/-- Witness for C2 at the EXACT-mode example batch. -/
theorem batch_outcome_partition_witness :
    ((([⟨"ALICE SMITH", "ALICE SMITH", "m1"⟩] : List Row).map Row.searchName).toFinset ∪
        (notFound ["ALICE SMITH", "BOB LEE"]
          [⟨"ALICE SMITH", "ALICE SMITH", "m1"⟩]).toFinset
        = (["ALICE SMITH", "BOB LEE"] : List String).toFinset) ∧
    ((([⟨"ALICE SMITH", "ALICE SMITH", "m1"⟩] : List Row).map Row.searchName).toFinset ∩
        (notFound ["ALICE SMITH", "BOB LEE"]
          [⟨"ALICE SMITH", "ALICE SMITH", "m1"⟩]).toFinset = ∅) :=
  batch_outcome_partition "eq" ["ALICE SMITH", "BOB LEE"] [recAlice, recCarol]
    [⟨"ALICE SMITH", "ALICE SMITH", "m1"⟩] rfl

/-- Claim C4: in EXACT (`eq`) mode, for input names that respect the
InputName invariant (non-empty), the produced rows are exactly the per-record
outcomes of `specEqRow` in record order (each record yields at most one row,
a row iff its normalized member name is among the input names, and the
search name equals the member name); on the example batch the single row is
`("ALICE SMITH", "ALICE SMITH", "m1")` and the not-found list is
`["BOB LEE"]`. -/
theorem exact_mode_characterization :
    (∀ (names : List String) (ms : List Json) (rows : List Row),
        (∀ n ∈ names, n ≠ "") → buildRows "eq" names ms = .ok rows →
        rows = ms.filterMap (specEqRow names)) ∧
    buildRows "eq" ["ALICE SMITH", "BOB LEE"] [recAlice, recCarol] =
      .ok [⟨"ALICE SMITH", "ALICE SMITH", "m1"⟩] ∧
    notFound ["ALICE SMITH", "BOB LEE"] [⟨"ALICE SMITH", "ALICE SMITH", "m1"⟩] =
      ["BOB LEE"] := by
  refine ⟨?_, rfl, by decide⟩
  intro names ms
  induction ms with
  | nil =>
    intro rows _ h
    cases h
    rfl
  | cons m rest ih =>
    intro rows hnames h
    unfold buildRows at h
    split at h
    · exact Except.noConfusion h
    · rename_i mn mid hex
      split at h
      · exact Except.noConfusion h
      · rename_i rows' hrest
        split at h
        · rename_i r0 hrow
          cases h
          obtain ⟨hmid, hmn, hpid, -, hmode⟩ := rowOf_eq_some hrow
          rcases hmode with ⟨-, hsn, hin⟩ | ⟨hne, -⟩
          · have hr0 : r0 = ⟨mn, mn, mid⟩ := by
              have : r0 = ⟨r0.searchName, r0.memberName, r0.passkitId⟩ := rfl
              rw [this, hsn, hmn, hpid]
            have hspec : specEqRow names m = some ⟨mn, mn, mid⟩ := by
              unfold specEqRow
              rw [hex]
              simp [hmid, hin]
            simp [List.filterMap_cons, hspec, hr0, ih rows' hnames hrest]
          · exact absurd rfl hne
        · rename_i hrow
          cases h
          have hspec : specEqRow names m = none := by
            unfold specEqRow
            rw [hex]
            by_cases hmid : mid = ""
            · simp [hmid]
            · by_cases hin : mn ∈ names
              · exfalso
                have hmn : mn ≠ "" := hnames mn hin
                unfold rowOf at hrow
                simp [hmid, hin, hmn] at hrow
              · simp [hin]
          simp [List.filterMap_cons, hspec, ih rows hnames hrest]

/-- Witness for C4 at the EXACT-mode example batch: the produced rows equal
the per-record outcomes. -/
theorem exact_mode_characterization_witness :
    (∀ n ∈ (["ALICE SMITH", "BOB LEE"] : List String), n ≠ "") ∧
    ([⟨"ALICE SMITH", "ALICE SMITH", "m1"⟩] : List Row) =
      [recAlice, recCarol].filterMap (specEqRow ["ALICE SMITH", "BOB LEE"]) :=
  ⟨by decide, exact_mode_characterization.1 ["ALICE SMITH", "BOB LEE"]
    [recAlice, recCarol] [⟨"ALICE SMITH", "ALICE SMITH", "m1"⟩] (by decide) rfl⟩

/-- Claim C5: in either match mode, every produced row carries a non-empty
member identifier, the identifier extracted from some record of the batch's
record list — a record whose extracted identifier is empty never appears in
any row. -/
theorem empty_id_discarded :
    ∀ (op : String) (names : List String) (ms : List Json) (rows : List Row),
      buildRows op names ms = .ok rows → ∀ r ∈ rows, r.passkitId ≠ "" ∧
        ∃ m ∈ ms, ∃ mn, extract_display_name_and_id m = .ok (mn, r.passkitId) := by
  intro op names ms rows h r hr
  obtain ⟨m, hm, mn, mid, hex, hrow⟩ := buildRows_ok_mem h r hr
  obtain ⟨hmid, -, hpid, -, -⟩ := rowOf_eq_some hrow
  refine ⟨?_, m, hm, mn, ?_⟩
  · rw [hpid]; exact hmid
  · rw [hpid]; exact hex

/-- Witness for C5 at the tie-break example record. -/
theorem empty_id_discarded_witness :
    (⟨"LEE", "BOB LEE", "m9"⟩ : Row).passkitId ≠ "" ∧
      ∃ m ∈ [recBobLee], ∃ mn, extract_display_name_and_id m =
        .ok (mn, (⟨"LEE", "BOB LEE", "m9"⟩ : Row).passkitId) :=
  empty_id_discarded "like" ["LEE", "BOB LEE"] [recBobLee]
    [⟨"LEE", "BOB LEE", "m9"⟩] rfl ⟨"LEE", "BOB LEE", "m9"⟩ (List.mem_cons_self _ _)

/-- Claim C8: only the explicit mark and clear actions change the
copied-marks set; a marked id stays marked across any number of search runs,
and after a clear no id is marked. -/
theorem copy_marks_frame :
    (∀ (s : SessionState) (e : UiEvent), touchesMarks e = false →
        (step s e).copied_ids = s.copied_ids) ∧
    (∀ (s : SessionState) (evs : List UiEvent),
        (∀ e ∈ evs, isSearchEvent e = true) →
        isMarked (evs.foldl step (step s (.markCopied "m1"))) "m1" = true) ∧
    (∀ (s : SessionState) (pid : String), isMarked (step s .clearMarks) pid = false) := by
  refine ⟨?_, ?_, ?_⟩
  · intro s e he
    cases e with
    | editNames t => rfl
    | ocrFill ns => rfl
    | runSearch t op ms => rfl
    | markCopied pid => simp [touchesMarks] at he
    | clearMarks => simp [touchesMarks] at he
    | downloadCsv => rfl
  · intro s evs hevs
    have hpres : ∀ (evs' : List UiEvent) (s' : SessionState),
        (∀ e ∈ evs', isSearchEvent e = true) →
        (evs'.foldl step s').copied_ids = s'.copied_ids := by
      intro evs'
      induction evs' with
      | nil => intro s' _; rfl
      | cons e es ihe =>
        intro s' h
        rw [List.foldl_cons,
          ihe (step s' e) (fun x hx => h x (List.mem_cons_of_mem _ hx))]
        have hse : isSearchEvent e = true := h e (List.mem_cons_self _ _)
        cases e with
        | runSearch t op ms => rfl
        | editNames t => simp [isSearchEvent] at hse
        | ocrFill ns => simp [isSearchEvent] at hse
        | markCopied pid => simp [isSearchEvent] at hse
        | clearMarks => simp [isSearchEvent] at hse
        | downloadCsv => simp [isSearchEvent] at hse
    have hmark : (step s (.markCopied "m1")).copied_ids = s.copied_ids.insert "m1" := by
      simp [step]
    unfold isMarked
    rw [hpres evs _ hevs, hmark]
    exact List.elem_iff.mpr (List.mem_insert_self _ _)
  · intro s pid
    rfl

/-- Witness for C8: starting from the initial session state, after marking
`"m1"` and running one search batch, `"m1"` is still marked. -/
theorem copy_marks_frame_witness :
    (∀ e ∈ [UiEvent.runSearch "ALICE" "like" []], isSearchEvent e = true) ∧
    isMarked ([UiEvent.runSearch "ALICE" "like" []].foldl step
      (step init_state (.markCopied "m1"))) "m1" = true :=
  ⟨by decide, copy_marks_frame.2.1 init_state [UiEvent.runSearch "ALICE" "like" []]
    (by decide)⟩

/-- Claim C9: for every HTTP status >= 400 the status check raises an error
that is exactly the rendering of an `UpstreamError` carrying the status code
and the first 500 characters of the body, whose sub-kind is AuthFailure iff
the status is 401 or 403 and NotFound iff it is 404 (and Other otherwise);
for status < 400 no error is raised. -/
theorem upstream_error_classification :
    ∀ (status : Nat) (text : String),
      (400 ≤ status →
        checkStatus status text =
          .error (renderUpstreamError (mkUpstreamError status text)) ∧
        (mkUpstreamError status text).statusCode = status ∧
        (mkUpstreamError status text).bodyExcerpt = text.take 500 ∧
        ((mkUpstreamError status text).kind = .authFailure ↔
          (status = 401 ∨ status = 403)) ∧
        ((mkUpstreamError status text).kind = .notFoundKind ↔ status = 404)) ∧
      (status < 400 → checkStatus status text = .ok ()) := by
  intro status text
  constructor
  · intro h
    refine ⟨?_, by simp [mkUpstreamError], by simp [mkUpstreamError], ?_, ?_⟩
    · simp [checkStatus, renderUpstreamError, mkUpstreamError, h]
    · unfold mkUpstreamError classifyStatus
      split_ifs with h1 h2
      · exact ⟨fun _ => h1, fun _ => rfl⟩
      · exact ⟨fun hk => absurd hk (by decide), fun h14 => absurd h14 h1⟩
      · exact ⟨fun hk => absurd hk (by decide), fun h14 => absurd h14 h1⟩
    · unfold mkUpstreamError classifyStatus
      split_ifs with h1 h2
      · refine ⟨fun hk => absurd hk (by decide), fun h404 => ?_⟩
        rcases h1 with h1 | h1 <;> omega
      · exact ⟨fun _ => h2, fun _ => rfl⟩
      · exact ⟨fun hk => absurd hk (by decide), fun h404 => absurd h404 h2⟩
  · intro h
    unfold checkStatus
    rw [if_neg (by omega)]

/-- Witness for C9 at status 404: the raised message is the rendered
NotFound-kind upstream error. -/
theorem upstream_error_classification_witness :
    checkStatus 404 "missing" =
      .error (renderUpstreamError (mkUpstreamError 404 "missing")) ∧
    ((mkUpstreamError 404 "missing").kind = .notFoundKind ↔ (404 : Nat) = 404) :=
  ⟨((upstream_error_classification 404 "missing").1 (by norm_num)).1,
    ((upstream_error_classification 404 "missing").1 (by norm_num)).2.2.2.2⟩

/-- Claim C10: with an empty display-name batch, `listMembers` returns the
empty record list for every auth-header outcome, HTTP oracle, base URL,
program id, and parameter setting — in particular even when credential
loading or the HTTP call would fail, showing neither is performed. -/
theorem empty_batch_short_circuit :
    ∀ (auth : Except String (List (String × String)))
      (http : String → Json → Except String (Nat × String × Except String Json))
      (base program_id operator : String) (limit offset : Int)
      (order_by : String) (order_asc : Bool),
      list_members_by_display_names auth http base program_id [] operator limit
        offset order_by order_asc = .ok [] := by
  intro auth http base program_id operator limit offset order_by order_asc
  rfl

/-- Claim C3 counterexample: the parsed body `5` (a non-list, non-dict JSON
value matching no known envelope shape) makes the shape fallback raise a
TypeError — Python evaluates `"members" in 5` — instead of returning the
empty sequence, and `listMembers` propagates it. -/
theorem unknown_shape_counterexample :
    parseMembers (.num 5) = .error "TypeError: argument of type is not iterable" ∧
    list_members_by_display_names (.ok []) (fun _ _ => .ok (200, "5", .ok (.num 5)))
      "https://api" "prog" ["X"] "eq" 1000 0 "created" true =
      .error "TypeError: argument of type is not iterable" :=
  ⟨rfl, rfl⟩

theorem findListKey_some_any {kvs : List (String × Json)} :
    ∀ {keys : List String} {l : List Json}, findListKey kvs keys = some l →
      (keys.any fun k =>
        match kvs.lookup k with
        | some (.arr _) => true
        | _ => false) = true := by
  intro keys
  induction keys with
  | nil => intro l h; cases h
  | cons k ks ih =>
    intro l h
    unfold findListKey at h
    rw [List.any_cons]
    split at h
    · rename_i l' heq
      simp [heq]
    · simp [ih h]

/-- Claim C3 (amended): for every parsed response body that is a JSON object
matching none of the known envelope shapes, the shape fallback returns the
empty record sequence without raising; the fallback is not total over
non-object, non-list bodies. -/
theorem unknown_shape_amended (kvs : List (String × Json))
    (h : specKnownShape kvs = false) : parseMembers (.obj kvs) = .ok [] := by
  unfold specKnownShape at h
  rw [Bool.or_eq_false_iff] at h
  obtain ⟨h1, h2⟩ := h
  cases hfk : findListKey kvs ["members", "results", "data", "items"] with
  | some l =>
    exfalso
    rw [findListKey_some_any hfk] at h1
    exact Bool.noConfusion h1
  | none =>
    cases hresp : kvs.lookup "response" with
    | none => simp [parseMembers, hfk, hresp]
    | some v =>
      cases v with
      | obj rkvs =>
        simp only [hresp] at h2
        cases hfk2 : findListKey rkvs ["members", "results", "items"] with
        | some l =>
          exfalso
          rw [findListKey_some_any hfk2] at h2
          exact Bool.noConfusion h2
        | none => simp [parseMembers, hfk, hresp, hfk2]
      | null => simp [parseMembers, hfk, hresp]
      | bool b => simp [parseMembers, hfk, hresp]
      | num n => simp [parseMembers, hfk, hresp]
      | str s => simp [parseMembers, hfk, hresp]
      | arr l => simp [parseMembers, hfk, hresp]

/-- Witness for claim C3's amended statement: an object body with no known
wrapper key parses to the empty record list. -/
theorem unknown_shape_amended_witness :
    specKnownShape [("status", Json.str "ok")] = false ∧
    parseMembers (.obj [("status", Json.str "ok")]) = .ok [] :=
  ⟨rfl, unknown_shape_amended [("status", Json.str "ok")] rfl⟩

/-! Lemmas about character normalization, towards idempotence. -/

theorem toNat_ofNat_lt {n : Nat} (h : n < 55296) : (Char.ofNat n).toNat = n := by
  have hv : n.isValidChar := Or.inl h
  unfold Char.ofNat
  rw [dif_pos hv]
  rfl

theorem toUpper_toNat_of_lower {c : Char} (h : 97 ≤ c.toNat ∧ c.toNat ≤ 122) :
    (Char.toUpper c).toNat = c.toNat - 32 := by
  simp only [Char.toUpper]
  rw [if_pos ⟨h.1, h.2⟩]
  exact toNat_ofNat_lt (by omega)

theorem toUpper_eq_of_not_lower {c : Char} (h : ¬(97 ≤ c.toNat ∧ c.toNat ≤ 122)) :
    Char.toUpper c = c := by
  simp only [Char.toUpper]
  rw [if_neg h]

theorem toUpper_idem (c : Char) : Char.toUpper (Char.toUpper c) = Char.toUpper c := by
  by_cases h : 97 ≤ c.toNat ∧ c.toNat ≤ 122
  · have h1 := toUpper_toNat_of_lower h
    apply toUpper_eq_of_not_lower
    omega
  · rw [toUpper_eq_of_not_lower h, toUpper_eq_of_not_lower h]

theorem isPySpace_toUpper (c : Char) : isPySpace (Char.toUpper c) = isPySpace c := by
  by_cases h : 97 ≤ c.toNat ∧ c.toNat ≤ 122
  · have h1 := toUpper_toNat_of_lower h
    unfold isPySpace
    rw [h1]
    rw [decide_eq_decide]
    omega
  · rw [toUpper_eq_of_not_lower h]

theorem collapse_head_not_space :
    ∀ {l : List Char} {c : Char} {cs : List Char},
      collapseWsAux true l = c :: cs → isPySpace c = false := by
  intro l
  induction l with
  | nil => intro c cs h; cases h
  | cons x xs ih =>
    intro c cs h
    by_cases hx : isPySpace x
    · simp only [collapseWsAux, hx, if_true] at h
      exact ih h
    · simp only [collapseWsAux, hx, if_false] at h
      injection h with h1 h2
      subst h1
      exact Bool.eq_false_iff.mpr hx

theorem collapse_cons_ws_false {c : Char} (hc : isPySpace c = true) (l : List Char) :
    collapseWsAux false (c :: l) = ' ' :: collapseWsAux true l := by
  show (if isPySpace c = true then
      (if false = true then collapseWsAux true l else ' ' :: collapseWsAux true l)
    else c :: collapseWsAux false l) = ' ' :: collapseWsAux true l
  rw [if_pos hc, if_neg (by decide)]

theorem collapse_cons_ws_true {c : Char} (hc : isPySpace c = true) (l : List Char) :
    collapseWsAux true (c :: l) = collapseWsAux true l := by
  show (if isPySpace c = true then
      (if true = true then collapseWsAux true l else ' ' :: collapseWsAux true l)
    else c :: collapseWsAux false l) = collapseWsAux true l
  rw [if_pos hc, if_pos rfl]

theorem collapse_cons_not_ws {c : Char} (hc : isPySpace c = false) (b : Bool)
    (l : List Char) : collapseWsAux b (c :: l) = c :: collapseWsAux false l := by
  cases b with
  | true =>
    show (if isPySpace c = true then
        (if true = true then collapseWsAux true l else ' ' :: collapseWsAux true l)
      else c :: collapseWsAux false l) = c :: collapseWsAux false l
    rw [if_neg (by rw [hc]; decide)]
  | false =>
    show (if isPySpace c = true then
        (if false = true then collapseWsAux true l else ' ' :: collapseWsAux true l)
      else c :: collapseWsAux false l) = c :: collapseWsAux false l
    rw [if_neg (by rw [hc]; decide)]

theorem collapse_true_eq_false {l : List Char}
    (h : ∀ c cs, l = c :: cs → isPySpace c = false) :
    collapseWsAux true l = collapseWsAux false l := by
  cases l with
  | nil => rfl
  | cons c cs =>
    have hc := h c cs rfl
    simp [collapseWsAux, hc]

theorem collapse_collapse : ∀ (b : Bool) (l : List Char),
    collapseWsAux false (collapseWsAux b l) = collapseWsAux b l := by
  intro b l
  induction l generalizing b with
  | nil => rfl
  | cons c cs ih =>
    by_cases hc : isPySpace c
    · cases b with
      | true =>
        simp only [collapseWsAux, hc, if_true]
        exact ih true
      | false =>
        rw [collapse_cons_ws_false hc]
        have h2 : collapseWsAux true (collapseWsAux true cs) = collapseWsAux true cs := by
          rw [collapse_true_eq_false fun d ds hd => collapse_head_not_space hd]
          exact ih true
        rw [collapse_cons_ws_false (by decide), h2]
    · have hcf : isPySpace c = false := Bool.eq_false_iff.mpr hc
      rw [collapse_cons_not_ws hcf b, collapse_cons_not_ws hcf false, ih false]

theorem collapse_mem : ∀ (b : Bool) (l : List Char) (c : Char),
    c ∈ collapseWsAux b l → c = ' ' ∨ (c ∈ l ∧ isPySpace c = false) := by
  intro b l
  induction l generalizing b with
  | nil => intro c h; cases h
  | cons x xs ih =>
    intro c h
    by_cases hx : isPySpace x
    · cases b with
      | true =>
        simp only [collapseWsAux, hx, if_true] at h
        rcases ih true c h with h' | ⟨hmem, hws⟩
        · exact Or.inl h'
        · exact Or.inr ⟨List.mem_cons_of_mem _ hmem, hws⟩
      | false =>
        simp only [collapseWsAux, hx, if_true, if_false] at h
        rcases List.mem_cons.mp h with rfl | h'
        · exact Or.inl rfl
        · rcases ih true c h' with h'' | ⟨hmem, hws⟩
          · exact Or.inl h''
          · exact Or.inr ⟨List.mem_cons_of_mem _ hmem, hws⟩
    · simp only [collapseWsAux, hx, if_false] at h
      rcases List.mem_cons.mp h with rfl | h'
      · exact Or.inr ⟨List.mem_cons_self _ _, Bool.eq_false_iff.mpr hx⟩
      · rcases ih false c h' with h'' | ⟨hmem, hws⟩
        · exact Or.inl h''
        · exact Or.inr ⟨List.mem_cons_of_mem _ hmem, hws⟩

theorem collapse_getLast : ∀ (b : Bool) (l : List Char) (c : Char),
    l.getLast? = some c → isPySpace c = false →
    ∃ d, (collapseWsAux b l).getLast? = some d ∧ isPySpace d = false := by
  intro b l
  induction l generalizing b with
  | nil => intro c h _; cases h
  | cons x xs ih =>
    intro c h hws
    cases xs with
    | nil =>
      have hxc : x = c := by
        have hx1 : ([x] : List Char).getLast? = some x := rfl
        rw [hx1] at h
        exact Option.some.inj h
      subst hxc
      refine ⟨x, ?_, hws⟩
      rw [collapse_cons_not_ws hws b]
      rfl
    | cons y ys =>
      rw [List.getLast?_cons_cons] at h
      obtain ⟨d, hd, hdws⟩ := ih true c h hws
      obtain ⟨d', hd', hdws'⟩ := ih false c h hws
      by_cases hx : isPySpace x
      · cases b with
        | true =>
          refine ⟨d, ?_, hdws⟩
          rw [collapse_cons_ws_true hx]
          exact hd
        | false =>
          refine ⟨d, ?_, hdws⟩
          rw [collapse_cons_ws_false hx]
          cases hlist : collapseWsAux true (y :: ys) with
          | nil => rw [hlist] at hd; cases hd
          | cons e es =>
            rw [hlist] at hd
            rw [List.getLast?_cons_cons]
            exact hd
      · have hxf : isPySpace x = false := Bool.eq_false_iff.mpr hx
        refine ⟨d', ?_, hdws'⟩
        rw [collapse_cons_not_ws hxf b]
        cases hlist : collapseWsAux false (y :: ys) with
        | nil => rw [hlist] at hd'; cases hd'
        | cons e es =>
          rw [hlist] at hd'
          rw [List.getLast?_cons_cons]
          exact hd'

theorem collapse_noTwoWs : ∀ (b : Bool) (l : List Char),
    noTwoWs (collapseWsAux b l) = true := by
  intro b l
  induction l generalizing b with
  | nil => rfl
  | cons x xs ih =>
    by_cases hx : isPySpace x
    · cases b with
      | true =>
        simp only [collapseWsAux, hx, if_true]
        exact ih true
      | false =>
        simp only [collapseWsAux, hx, if_true, if_false]
        cases hlist : collapseWsAux true xs with
        | nil => rfl
        | cons d ds =>
          have hdws : isPySpace d = false := collapse_head_not_space hlist
          have htail : noTwoWs (d :: ds) = true := hlist ▸ ih true
          simp [noTwoWs, hdws, htail]
    · simp only [collapseWsAux, hx, if_false]
      cases hlist : collapseWsAux false xs with
      | nil => rfl
      | cons d ds =>
        have htail : noTwoWs (d :: ds) = true := hlist ▸ ih false
        have hxf : isPySpace x = false := Bool.eq_false_iff.mpr hx
        simp [noTwoWs, hxf, htail]

theorem collapse_fix : ∀ {l : List Char}, noTwoWs l = true →
    (∀ c ∈ l, isPySpace c = true → c = ' ') → collapseWsAux false l = l := by
  intro l
  induction l with
  | nil => intro _ _; rfl
  | cons c cs ih =>
    intro h1 h2
    cases cs with
    | nil =>
      by_cases hc : isPySpace c
      · have hc' : c = ' ' := h2 c (List.mem_cons_self _ _) hc
        subst hc'
        simp [collapseWsAux]
      · simp [collapseWsAux, hc]
    | cons d ds =>
      have h1' : (!(isPySpace c && isPySpace d)) = true ∧ noTwoWs (d :: ds) = true := by
        rw [← Bool.and_eq_true]
        exact h1
      obtain ⟨hcd, hrest⟩ := h1'
      have ihrest : collapseWsAux false (d :: ds) = d :: ds :=
        ih hrest fun x hx => h2 x (List.mem_cons_of_mem _ hx)
      by_cases hc : isPySpace c
      · have hc' : c = ' ' := h2 c (List.mem_cons_self _ _) hc
        have hd : isPySpace d = false := by
          simp only [hc, Bool.true_and, Bool.not_eq_true'] at hcd
          exact hcd
        have htf : collapseWsAux true (d :: ds) = collapseWsAux false (d :: ds) := by
          apply collapse_true_eq_false
          intro e es he
          injection he with he1 he2
          subst he1
          exact hd
        subst hc'
        rw [collapse_cons_ws_false hc, htf, ihrest]
      · have hcf : isPySpace c = false := Bool.eq_false_iff.mpr hc
        rw [collapse_cons_not_ws hcf false, ihrest]

theorem dropWhile_head_false {p : Char → Bool} :
    ∀ {l : List Char} {c : Char} {cs : List Char},
      l.dropWhile p = c :: cs → p c = false := by
  intro l
  induction l with
  | nil => intro c cs h; cases h
  | cons x xs ih =>
    intro c cs h
    rw [List.dropWhile_cons] at h
    by_cases hx : p x
    · rw [if_pos hx] at h
      exact ih h
    · rw [if_neg hx] at h
      injection h with h1 h2
      subst h1
      exact Bool.eq_false_iff.mpr hx

theorem dropWhile_eq_self_of_head {p : Char → Bool} {l : List Char}
    (h : ∀ c cs, l = c :: cs → p c = false) : l.dropWhile p = l := by
  cases l with
  | nil => rfl
  | cons c cs =>
    rw [List.dropWhile_cons, if_neg]
    rw [h c cs rfl]
    decide

theorem pyStrip_head {l : List Char} {c : Char} {cs : List Char}
    (h : pyStrip l = c :: cs) : isPySpace c = false := by
  have h' : (pyStrip l).head? = some c := by rw [h]; rfl
  unfold pyStrip at h'
  rw [List.head?_reverse] at h'
  obtain ⟨t, ht⟩ :
      (l.dropWhile isPySpace).reverse.dropWhile isPySpace <:+
        (l.dropWhile isPySpace).reverse := List.dropWhile_suffix _
  have hfull : ((l.dropWhile isPySpace).reverse).getLast? = some c := by
    rw [← ht, List.getLast?_append, h']
    rfl
  rw [List.getLast?_reverse] at hfull
  cases hd : l.dropWhile isPySpace with
  | nil => rw [hd] at hfull; cases hfull
  | cons x xs =>
    rw [hd] at hfull
    have hxc : x = c := Option.some.inj hfull
    subst hxc
    exact dropWhile_head_false hd

theorem pyStrip_getLast {l : List Char} {c : Char}
    (h : (pyStrip l).getLast? = some c) : isPySpace c = false := by
  unfold pyStrip at h
  rw [List.getLast?_reverse] at h
  cases hd : (l.dropWhile isPySpace).reverse.dropWhile isPySpace with
  | nil => rw [hd] at h; cases h
  | cons x xs =>
    rw [hd] at h
    have hxc : x = c := Option.some.inj h
    subst hxc
    exact dropWhile_head_false hd

theorem pyStrip_eq_self {l : List Char}
    (hh : ∀ c, l.head? = some c → isPySpace c = false)
    (hl : ∀ c, l.getLast? = some c → isPySpace c = false) : pyStrip l = l := by
  unfold pyStrip
  have h1 : l.dropWhile isPySpace = l :=
    dropWhile_eq_self_of_head fun c cs hc => hh c (by rw [hc]; rfl)
  rw [h1]
  have h2 : l.reverse.dropWhile isPySpace = l.reverse :=
    dropWhile_eq_self_of_head fun c cs hc =>
      hl c (by rw [← List.head?_reverse, hc]; rfl)
  rw [h2, List.reverse_reverse]

theorem map_eq_self_of_fix {f : Char → Char} :
    ∀ {l : List Char}, (∀ c ∈ l, f c = c) → l.map f = l := by
  intro l
  induction l with
  | nil => intro _; rfl
  | cons c cs ih =>
    intro h
    rw [List.map_cons, h c (List.mem_cons_self _ _),
      ih fun x hx => h x (List.mem_cons_of_mem _ hx)]

theorem normCore_idem (l : List Char) : normCore (normCore l) = normCore l := by
  have hmem := collapse_mem false ((pyStrip l).map Char.toUpper)
  have hupper : ∀ c ∈ normCore l, Char.toUpper c = c := by
    intro c hc
    rcases hmem c hc with rfl | ⟨hc', -⟩
    · decide
    · obtain ⟨d, -, rfl⟩ := List.mem_map.mp hc'
      exact toUpper_idem d
  have hspace : ∀ c ∈ normCore l, isPySpace c = true → c = ' ' := by
    intro c hc hws
    rcases hmem c hc with rfl | ⟨-, hws'⟩
    · rfl
    · rw [hws] at hws'
      cases hws'
  have hhead : ∀ c, (normCore l).head? = some c → isPySpace c = false := by
    intro c hc
    cases hm : (pyStrip l).map Char.toUpper with
    | nil =>
      unfold normCore at hc
      rw [hm] at hc
      cases hc
    | cons x xs =>
      cases hs : pyStrip l with
      | nil => rw [hs] at hm; cases hm
      | cons y ys =>
        rw [hs, List.map_cons] at hm
        injection hm with hm1 hm2
        have hyws : isPySpace y = false := pyStrip_head hs
        have hxws : isPySpace x = false := by
          rw [← hm1, isPySpace_toUpper]
          exact hyws
        unfold normCore at hc
        rw [hs, List.map_cons, hm1, collapse_cons_not_ws hxws] at hc
        have hxc : x = c := Option.some.inj hc
        subst hxc
        exact hxws
  have hlast : ∀ c, (normCore l).getLast? = some c → isPySpace c = false := by
    intro c hc
    cases hm : ((pyStrip l).map Char.toUpper).getLast? with
    | none =>
      rw [List.getLast?_eq_none_iff] at hm
      unfold normCore at hc
      rw [hm] at hc
      cases hc
    | some z =>
      have hzws : isPySpace z = false := by
        rw [List.getLast?_map] at hm
        cases hw : (pyStrip l).getLast? with
        | none => rw [hw] at hm; cases hm
        | some w =>
          rw [hw] at hm
          have hwz : Char.toUpper w = z := Option.some.inj hm
          rw [← hwz, isPySpace_toUpper]
          exact pyStrip_getLast hw
      obtain ⟨d, hd, hdws⟩ :=
        collapse_getLast false ((pyStrip l).map Char.toUpper) z hm hzws
      have : some d = some c := by
        rw [← hd]
        exact congrArg _ rfl |>.trans hc
      have hdc : d = c := Option.some.inj this
      subst hdc
      exact hdws
  have houter : normCore (normCore l) =
      collapseWsAux false ((pyStrip (normCore l)).map Char.toUpper) := rfl
  rw [houter, pyStrip_eq_self hhead hlast, map_eq_self_of_fix hupper]
  exact collapse_fix (collapse_noTwoWs false _) hspace

/-- Claim C7: `normalize_name` (trim, collapse whitespace runs to one space,
uppercase) is idempotent on every raw string. -/
theorem normalize_name_idempotent :
    ∀ (s : String), normalize_name (normalize_name s) = normalize_name s := by
  intro s
  unfold normalize_name
  exact congrArg String.mk (normCore_idem s.data)

/-- Claim C6: `splitBatch` (`split_names_multiline`) returns at most `limit`
entries; the surviving entries appear in input-line order (the result is a
sublist of the in-order per-line normalizations); and every returned entry
is non-empty and is the normalization of some input line. -/
theorem split_batch_bounded_ordered :
    ∀ (text : String) (limit : Nat),
      (split_names_multiline text limit).length ≤ limit ∧
      (split_names_multiline text limit).Sublist
        ((pySplitlines text.data).map fun l => normalize_name ⟨l⟩) ∧
      ∀ s ∈ split_names_multiline text limit, s ≠ "" ∧
        ∃ l ∈ pySplitlines text.data, s = normalize_name ⟨l⟩ := by
  intro text limit
  refine ⟨?_, ?_, ?_⟩
  · unfold split_names_multiline
    rw [List.length_take]
    exact Nat.min_le_left _ _
  · unfold split_names_multiline
    exact (List.take_sublist _ _).trans (List.filter_sublist _)
  · intro s hs
    unfold split_names_multiline at hs
    have hs' := List.take_subset _ _ hs
    rw [List.mem_filter] at hs'
    obtain ⟨hmap, hpred⟩ := hs'
    refine ⟨?_, ?_⟩
    · intro hcontra
      subst hcontra
      simp at hpred
    · obtain ⟨l, hl, rfl⟩ := List.mem_map.mp hmap
      exact ⟨l, hl, rfl⟩

/-- Witness for C6 on a concrete two-line input. -/
theorem split_batch_bounded_ordered_witness :
    "BOB LEE" ≠ "" ∧ ∃ l ∈ pySplitlines " bob  lee \nann".data,
      "BOB LEE" = normalize_name ⟨l⟩ :=
  (split_batch_bounded_ordered " bob  lee \nann" 50).2.2 "BOB LEE" (by decide)

end PasskitApp
